import Mathlib

/-!
Shallow embedding of `src/ballot_assigner.py` (class `BallotAssigner`) and
verification of the specification claims about it.

Modelling conventions:
* Python lists become Lean `List`s; ballot identifiers and verifier names are
  type parameters (`α`, `β`) since the Python code is duck-typed (concrete
  instances use `Nat` or `String`).
* The Python `dict` used for the assignment is modelled as an association list
  together with `dictInsert`, which reproduces CPython dict semantics:
  writing to an existing key replaces its value in place (keeping the key's
  insertion-order position), writing a fresh key appends it.
* The randomness of `random.sample` / `random.shuffle` is modelled by passing
  the resulting list `selected` as an explicit argument; theorems hypothesise
  exactly the properties those library calls guarantee (length equal to the
  clamped count, no duplicates and membership in the source list when the
  source has no duplicates).
* `raise ValueError(...)` is modelled by `Except String`, returning the exact
  message string the Python code raises.  The specification's `NotLoadedError`
  and `NoAssignmentError` correspond to the two message constants below.
* File-system side effects of `generate_csv_files` are modelled by returning
  the list of (filename, rows) pairs that would be written; an `Except.error`
  result corresponds to raising before any file is written.
-/

namespace BallotAssigner

/-- CPython dict write `d[k] = v` on an insertion-ordered association list:
an existing key keeps its position and gets the new value, a fresh key is
appended at the end. -/
def dictInsert {β γ : Type} [DecidableEq β] (k : β) (v : γ) :
    List (β × γ) → List (β × γ)
  | [] => [(k, v)]
  | p :: rest => if p.1 = k then (k, v) :: rest else p :: dictInsert k v rest

/-- CPython dict read `d[k]` (as an `Option`). -/
def dictGet {β γ : Type} [DecidableEq β] (k : β) : List (β × γ) → Option γ
  | [] => none
  | p :: rest => if p.1 = k then some p.2 else dictGet k rest

/-- Python slice `l[start : start + len]`. -/
def sliceAt {γ : Type} (l : List γ) (start len : Nat) : List γ :=
  (l.drop start).take len

/-- Size of the block cut for loop index `i` in `assign_ballots`
(source line 92-93: `extra = 1 if i < remainder else 0`,
`end_index = start_index + ballots_per_verifier + extra`). -/
def blockLen (base rem i : Nat) : Nat :=
  base + if i < rem then 1 else 0

/-- Value of `start_index` at the beginning of loop iteration `i` when the
loop of `assign_ballots` is started with `start_index = 0`. -/
def startIdx (base rem i : Nat) : Nat :=
  base * i + min i rem

/-- The contiguous block of `selected` that loop iteration `i` slices off. -/
def blockFor {γ : Type} (selected : List γ) (base rem i : Nat) : List γ :=
  sliceAt selected (startIdx base rem i) (blockLen base rem i)

/-- The `for i, verifier in enumerate(self.verifiers)` loop of
`assign_ballots` (source lines 89-96): walks the verifier list carrying the
loop index `i`, the running `start_index` and the dict built so far, and
performs `assignment[verifier] = selected_ballots[start_index:end_index]`. -/
def assignLoop {α β : Type} [DecidableEq β] (selected : List α) (base rem : Nat) :
    List β → Nat → Nat → List (β × List α) → List (β × List α)
  | [], _, _, acc => acc
  | v :: vs, i, start, acc =>
      assignLoop selected base rem vs (i + 1) (start + blockLen base rem i)
        (dictInsert v (sliceAt selected start (blockLen base rem i)) acc)

/-- The pairs the loop produces when every verifier name is fresh
(no dict overwrite happens): one `(verifier, block)` pair per verifier,
in load order. -/
def buildPairs {α β : Type} (selected : List α) (base rem : Nat) :
    List β → Nat → Nat → List (β × List α)
  | [], _, _ => []
  | v :: vs, i, start =>
      (v, sliceAt selected start (blockLen base rem i)) ::
        buildPairs selected base rem vs (i + 1) (start + blockLen base rem i)

/-- Clamping of the requested count (source lines 75-77:
`if ballots_to_assign > len(self.ballot_ids): ballots_to_assign = len(...)`). -/
def clampedCount {α : Type} (ballot_ids : List α) (count : Nat) : Nat :=
  if count > ballot_ids.length then ballot_ids.length else count

/-- Whether `assign_ballots` prints the over-request warning
(source line 75-76). -/
def overRequestWarning {α : Type} (ballot_ids : List α) (count : Nat) : Bool :=
  decide (count > ballot_ids.length)

/-- Message of the `ValueError` raised by `assign_ballots` when nothing is
loaded; this is the spec's `NotLoadedError`. -/
def notLoadedMsg : String := "No data loaded. Please call load_data() first."

/-- Shallow embedding of `BallotAssigner.assign_ballots` (source lines 63-99).
`selected` stands for `selected_ballots` after `random.sample` and
`random.shuffle`; it is passed explicitly because it is the only
nondeterministic quantity. -/
def assign_ballots {α β : Type} [DecidableEq β] (ballot_ids : List α)
    (verifiers : List β) (count : Nat) (selected : List α) :
    Except String (List (β × List α)) :=
  if ballot_ids.isEmpty || verifiers.isEmpty then
    .error notLoadedMsg
  else
    .ok (assignLoop selected (clampedCount ballot_ids count / verifiers.length)
      (clampedCount ballot_ids count % verifiers.length) verifiers 0 0 [])

/-- Python `sum(len(v) for v in assignment.values())`. -/
def sumValues {β α : Type} (asg : List (β × List α)) : Nat :=
  (asg.map (fun p => p.2.length)).sum

/-- Concatenation of all assignment values (the multiset union of the
per-recipient identifier lists, in dict order). -/
def joinValues {β α : Type} (asg : List (β × List α)) : List α :=
  (asg.map (fun p => p.2)).flatten

end BallotAssigner

namespace BallotAssigner

/-- The fixed export schema `self.header` (source lines 29-44), 213 column
names used as the first row of every generated file. -/
def header : List String := [
  "id", "dominio", "unidad_educativa", "grado", "contador", "1", "2", "3", "4", "5", "6", "7",
  "8", "9", "10", "11", "12", "13", "14", "15", "16", "17", "18", "19", "20", "21", "21.1",
  "21.2", "21.3", "21.4", "21.5", "21.6", "21.7", "21.8", "21.9", "22", "23", "24", "25", "26",
  "27", "28", "29", "30", "31", "31.1", "31.2", "31.3", "31.4", "31.5", "31.6", "32", "33",
  "34", "35", "36", "37", "38", "39", "40", "41", "42", "43", "44", "45", "46", "46.1", "47",
  "48", "49", "50", "51", "52", "53", "54", "55", "56", "57", "58", "59", "60", "61", "62",
  "63", "64", "65", "66", "67", "68", "69", "70", "71", "72", "73", "74", "75", "76", "77",
  "78", "79", "80", "81", "82", "83", "84", "85", "85.1", "85.2", "85.3", "85.4", "85.5",
  "85.6", "85.7", "85.8", "85.9", "85.10", "85.11", "85.12", "85.13", "86", "86.1", "86.2",
  "86.3", "86.4", "87", "87.1", "87.2", "87.3", "87.4", "88", "88.1", "88.2", "88.3", "88.4",
  "89", "89.1", "89.2", "89.3", "89.4", "90", "90.1", "90.2", "90.3", "90.4", "90.5", "90.6",
  "90.7", "90.8", "90.9", "90.10", "90.11", "90.12", "90.13", "90.14", "90.15", "90.16",
  "90.17", "90.18", "90.19", "91", "92", "93", "94", "95", "96", "97", "98", "98.1", "98.2",
  "98.3", "99", "100", "101", "102", "103", "103.1", "103.2", "104", "105", "106", "107",
  "108", "109", "110", "111", "112", "113", "114", "115", "116", "117", "118", "119", "120",
  "121", "122", "123", "124", "125", "126", "127", "128", "129", "129.1", "129.2", "129.3",
  "129.4", "129.5", "129.6", "129.7", "129.8", "129.9", "129.10"]

/-- Python's test `c.isalnum() or c in (' ', '-', '_')` from the filename
sanitisation (source line 114).  `str.isalnum` is modelled by
`Char.isAlphanum` (the ASCII fragment of Python's Unicode-aware test). -/
def pyKeepChar (c : Char) : Bool :=
  c.isAlphanum || c = ' ' || c = '-' || c = '_'

/-- Python `str.rstrip()` on a character list: remove trailing whitespace. -/
def pyRstrip (cs : List Char) : List Char :=
  (cs.reverse.dropWhile Char.isWhitespace).reverse

/-- The `safe_verifier_name` computed at source line 114:
`"Assigned_ballots_" + "".join(c for c in verifier if c.isalnum() or c in (' ', '-', '_')).rstrip()`.
The `"".join(generator)` is modelled by the character-by-character `foldl`
that builds the joined list left to right. -/
def safe_verifier_name (verifier : String) : String :=
  "Assigned_ballots_" ++ String.mk (pyRstrip
    (verifier.data.foldl (fun acc c => if pyKeepChar c then acc ++ [c] else acc) []))

/-- The full relative path of a recipient's export file (source line 115:
`filename = f"{output_directory}/{safe_verifier_name}.csv"`). -/
def exportFileName (outputDirectory : String) (verifier : String) : String :=
  outputDirectory ++ "/" ++ safe_verifier_name verifier ++ ".csv"

/-- Sanitised file-name core as worded by the specification: strip every
character that is not alphanumeric, space, hyphen or underscore, then trim
trailing whitespace.  Written with `List.filter` to follow the spec's wording;
compared against the source-derived `safe_verifier_name` in claim C8. -/
def specSanitizedName (verifier : String) : String :=
  String.mk (pyRstrip (verifier.data.filter pyKeepChar))

/-- Rows written to one recipient's file (source lines 119-124): the header,
then for each assigned ballot a row whose first cell is the ballot id and
whose remaining `len(header) - 1` cells are the literal "0". -/
def fileRows (ballots : List String) : List (List String) :=
  header :: ballots.map (fun b => b :: List.replicate (header.length - 1) "0")

/-- Message of the `ValueError` raised by `generate_csv_files` when no
assignment exists; this is the spec's `NoAssignmentError`. -/
def noAssignmentMsg : String := "No assignments made. Please call assign_ballots() first."

/-- Shallow embedding of `BallotAssigner.generate_csv_files` (source lines
101-126).  The file-system effect is modelled by returning the list of
(filename, rows) pairs written, one per recipient in dict order; the error
case returns before anything is written. -/
def generate_csv_files (outputDirectory : String)
    (asg : List (String × List String)) :
    Except String (List (String × List (List String))) :=
  if asg.isEmpty then .error noAssignmentMsg
  else .ok (asg.map (fun p => (exportFileName outputDirectory p.1, fileRows p.2)))

/-- One record of the summary DataFrame built by `get_assignment_summary`
(source lines 135-141). -/
structure SummaryRow where
  verifier : String
  ballots_assigned : Nat
  ballot_list : String
  deriving DecidableEq

/-- Shallow embedding of `BallotAssigner.get_assignment_summary` (source lines
128-143): one row per dict entry, in dict order, with the verifier name, the
number of assigned ballots and the ballots joined with ", ".  (For string
ballot ids, Python's `map(str, ballots)` is the identity.)  The function has
no emptiness guard, exactly like the source. -/
def get_assignment_summary (asg : List (String × List String)) : List SummaryRow :=
  asg.map (fun p => ⟨p.1, p.2.length, String.intercalate ", " p.2⟩)

end BallotAssigner

namespace BallotAssigner

variable {α β γ : Type}

/-- Membership in a dict after a write: the pair is the written one or was
already present. -/
theorem mem_dictInsert [DecidableEq β] {k : β} {v : γ} :
    ∀ {l : List (β × γ)} {p : β × γ}, p ∈ dictInsert k v l → p = (k, v) ∨ p ∈ l := by
  intro l
  induction l with
  | nil => intro p hp; simp [dictInsert] at hp; exact Or.inl hp
  | cons q rest ih =>
      intro p hp
      by_cases hq : q.1 = k
      · simp [dictInsert, hq] at hp
        rcases hp with h | h
        · exact Or.inl (by simp [h])
        · exact Or.inr (List.mem_cons_of_mem _ h)
      · simp [dictInsert, hq] at hp
        rcases hp with h | h
        · exact Or.inr (by simp [h])
        · rcases ih h with h1 | h1
          · exact Or.inl h1
          · exact Or.inr (List.mem_cons_of_mem _ h1)

/-- Reading the key just written yields the written value. -/
theorem dictGet_dictInsert_self [DecidableEq β] (k : β) (v : γ) :
    ∀ l : List (β × γ), dictGet k (dictInsert k v l) = some v := by
  intro l
  induction l with
  | nil => simp [dictInsert, dictGet]
  | cons q rest ih =>
      by_cases hq : q.1 = k
      · simp [dictInsert, hq, dictGet]
      · simp [dictInsert, hq, dictGet, ih]

/-- Writing one key does not change reads of another key. -/
theorem dictGet_dictInsert_ne [DecidableEq β] {k k' : β} (v : γ) (hne : k' ≠ k) :
    ∀ l : List (β × γ), dictGet k' (dictInsert k v l) = dictGet k' l := by
  have hk : ¬ (k = k') := fun h => hne h.symm
  intro l
  induction l with
  | nil => simp [dictInsert, dictGet, hk]
  | cons q rest ih =>
      by_cases hq : q.1 = k
      · have hq' : ¬ (q.1 = k') := by rw [hq]; exact hk
        simp [dictInsert, hq, dictGet, hk, hq']
      · simp [dictInsert, hq, dictGet, ih]

/-- Key membership after a dict write. -/
theorem mem_keys_dictInsert [DecidableEq β] {k k' : β} {v : γ} :
    ∀ (l : List (β × γ)),
      (k' ∈ (dictInsert k v l).map Prod.fst ↔ k' = k ∨ k' ∈ l.map Prod.fst) := by
  intro l
  induction l with
  | nil => simp [dictInsert]
  | cons q rest ih =>
      by_cases hq : q.1 = k
      · simp only [dictInsert, if_pos hq, List.map_cons, List.mem_cons]
        constructor
        · rintro (h | h)
          · exact Or.inl h
          · exact Or.inr (Or.inr h)
        · rintro (h | h | h)
          · exact Or.inl h
          · exact Or.inl (by rw [← hq]; exact h)
          · exact Or.inr h
      · simp only [dictInsert, if_neg hq, List.map_cons, List.mem_cons, ih]
        tauto

/-- A dict write preserves distinctness of the keys. -/
theorem keys_nodup_dictInsert [DecidableEq β] {k : β} {v : γ} :
    ∀ (l : List (β × γ)), (l.map Prod.fst).Nodup →
      ((dictInsert k v l).map Prod.fst).Nodup := by
  intro l
  induction l with
  | nil => intro _; simp [dictInsert]
  | cons q rest ih =>
      intro hl
      rw [List.map_cons, List.nodup_cons] at hl
      by_cases hq : q.1 = k
      · simp only [dictInsert, if_pos hq, List.map_cons, List.nodup_cons]
        exact ⟨by rw [← hq]; exact hl.1, hl.2⟩
      · simp only [dictInsert, if_neg hq, List.map_cons, List.nodup_cons]
        refine ⟨?_, ih hl.2⟩
        intro hmem
        rcases (mem_keys_dictInsert rest).1 hmem with h | h
        · exact hq h
        · exact hl.1 h

/-- Writing a fresh key appends the pair at the end. -/
theorem dictInsert_eq_append [DecidableEq β] {k : β} {v : γ} :
    ∀ (l : List (β × γ)), k ∉ l.map Prod.fst → dictInsert k v l = l ++ [(k, v)] := by
  intro l
  induction l with
  | nil => intro _; simp [dictInsert]
  | cons q rest ih =>
      intro hk
      rw [List.map_cons, List.mem_cons] at hk
      have h1 : ¬ k = q.1 := fun h => hk (Or.inl h)
      have h2 : k ∉ rest.map Prod.fst := fun h => hk (Or.inr h)
      have hq : ¬ q.1 = k := fun h => h1 h.symm
      simp only [dictInsert, if_neg hq, ih h2, List.cons_append]

end BallotAssigner

namespace BallotAssigner

variable {α β γ : Type}

/-- A slice is a sublist of the sliced list. -/
theorem sliceAt_sublist (l : List γ) (s n : Nat) : (sliceAt l s n).Sublist l :=
  (List.take_sublist n (l.drop s)).trans (List.drop_sublist s l)

/-- A slice of a duplicate-free list is duplicate-free. -/
theorem sliceAt_nodup {l : List γ} (h : l.Nodup) (s n : Nat) : (sliceAt l s n).Nodup :=
  (sliceAt_sublist l s n).nodup h

/-- Every element of a slice is an element of the sliced list. -/
theorem mem_of_mem_sliceAt {l : List γ} {x : γ} {s n : Nat}
    (h : x ∈ sliceAt l s n) : x ∈ l :=
  (sliceAt_sublist l s n).subset h

/-- Every element of the slice `l[s : s+n]` lies in the dropped tail `l.drop s`. -/
theorem mem_drop_of_mem_sliceAt {l : List γ} {x : γ} {s n : Nat}
    (h : x ∈ sliceAt l s n) : x ∈ l.drop s :=
  List.take_subset n (l.drop s) h

/-- Every element of the slice `l[s : s+n]` lies in the prefix `l.take (s + n)`. -/
theorem mem_take_of_mem_sliceAt {l : List γ} {x : γ} {s n : Nat}
    (h : x ∈ sliceAt l s n) : x ∈ l.take (s + n) := by
  rw [List.take_add]
  exact List.mem_append_right _ h

/-- Length of a Python slice. -/
theorem length_sliceAt (l : List γ) (s n : Nat) :
    (sliceAt l s n).length = min n (l.length - s) := by
  simp [sliceAt]

/-- Prefix membership is monotone in the prefix length. -/
theorem mem_take_of_le {l : List γ} {x : γ} {s t : Nat} (hst : s ≤ t)
    (h : x ∈ l.take s) : x ∈ l.take t := by
  have he : (l.take t).take s = l.take s := by
    rw [List.take_take, Nat.min_eq_left hst]
  rw [← he] at h
  exact List.take_subset s (l.take t) h

/-- In a duplicate-free list, the prefix and the matching tail are disjoint. -/
theorem not_mem_take_and_drop {l : List γ} {x : γ} (h : l.Nodup) (s : Nat)
    (h1 : x ∈ l.take s) (h2 : x ∈ l.drop s) : False := by
  have hl := h
  rw [← List.take_append_drop s l, List.nodup_append] at hl
  exact hl.2.2 h1 h2

/-- The loop's start index at step 0. -/
theorem startIdx_zero (base rem : Nat) : startIdx base rem 0 = 0 := by
  simp [startIdx]

/-- One loop step advances the start index by exactly the block size. -/
theorem startIdx_succ (base rem i : Nat) :
    startIdx base rem (i + 1) = startIdx base rem i + blockLen base rem i := by
  unfold startIdx blockLen
  rw [Nat.mul_succ]
  by_cases h : i < rem
  · simp only [if_pos h]
    omega
  · simp only [if_neg h]
    omega

/-- The start index is monotone in the loop counter. -/
theorem startIdx_mono (base rem : Nat) {i j : Nat} (h : i ≤ j) :
    startIdx base rem i ≤ startIdx base rem j := by
  unfold startIdx
  have hm : base * i ≤ base * j := Nat.mul_le_mul_left base h
  omega

/-- The start index after all `n` iterations equals the clamped count when
`base` and `rem` are quotient and remainder of `c` by `n` with `rem < n`. -/
theorem startIdx_total {c n : Nat} (hn : 0 < n) :
    startIdx (c / n) (c % n) n = c := by
  unfold startIdx
  have hrem : c % n < n := Nat.mod_lt _ hn
  have hmin : min n (c % n) = c % n := Nat.min_eq_right (Nat.le_of_lt hrem)
  rw [hmin, Nat.mul_comm]
  exact Nat.div_add_mod c n

/-- Joined assignment values of a cons. -/
theorem joinValues_cons (q : β × List α) (l : List (β × List α)) :
    joinValues (q :: l) = q.2 ++ joinValues l := by
  simp [joinValues]

/-- Elements of the joined values after a dict write come from the old joined
values or from the written value. -/
theorem mem_joinValues_dictInsert [DecidableEq β] {k : β} {v : List α} {x : α} :
    ∀ (l : List (β × List α)), x ∈ joinValues (dictInsert k v l) →
      x ∈ joinValues l ∨ x ∈ v := by
  intro l
  induction l with
  | nil =>
      intro hx
      rw [show dictInsert k v ([] : List (β × List α)) = [(k, v)] from rfl,
        joinValues_cons] at hx
      simp [joinValues] at hx
      exact Or.inr hx
  | cons q rest ih =>
      intro hx
      by_cases hq : q.1 = k
      · rw [show dictInsert k v (q :: rest) = if q.1 = k then (k, v) :: rest
              else q :: dictInsert k v rest from rfl, if_pos hq,
          joinValues_cons] at hx
        rcases List.mem_append.1 hx with h | h
        · exact Or.inr h
        · exact Or.inl (by rw [joinValues_cons]; exact List.mem_append_right _ h)
      · rw [show dictInsert k v (q :: rest) = if q.1 = k then (k, v) :: rest
              else q :: dictInsert k v rest from rfl, if_neg hq,
          joinValues_cons] at hx
        rcases List.mem_append.1 hx with h | h
        · exact Or.inl (by rw [joinValues_cons]; exact List.mem_append_left _ h)
        · rcases ih h with h1 | h1
          · exact Or.inl (by rw [joinValues_cons]; exact List.mem_append_right _ h1)
          · exact Or.inr h1

/-- A dict write with a duplicate-free value that is disjoint from the current
joined values keeps the joined values duplicate-free. -/
theorem joinValues_dictInsert_nodup [DecidableEq β] {k : β} {v : List α} :
    ∀ (l : List (β × List α)), (joinValues l).Nodup → v.Nodup →
      (∀ x ∈ joinValues l, x ∉ v) → (joinValues (dictInsert k v l)).Nodup := by
  intro l
  induction l with
  | nil =>
      intro _ hv _
      rw [show dictInsert k v ([] : List (β × List α)) = [(k, v)] from rfl,
        joinValues_cons]
      simpa [joinValues] using hv
  | cons q rest ih =>
      intro hl hv hdisj
      rw [joinValues_cons, List.nodup_append] at hl
      by_cases hq : q.1 = k
      · rw [show dictInsert k v (q :: rest) = if q.1 = k then (k, v) :: rest
              else q :: dictInsert k v rest from rfl, if_pos hq, joinValues_cons,
          List.nodup_append]
        refine ⟨hv, hl.2.1, ?_⟩
        intro x hxv hxrest
        exact hdisj x (by rw [joinValues_cons]; exact List.mem_append_right _ hxrest) hxv
      · rw [show dictInsert k v (q :: rest) = if q.1 = k then (k, v) :: rest
              else q :: dictInsert k v rest from rfl, if_neg hq, joinValues_cons,
          List.nodup_append]
        refine ⟨hl.1, ih hl.2.1 hv ?_, ?_⟩
        · intro x hx
          exact hdisj x (by rw [joinValues_cons]; exact List.mem_append_right _ hx)
        · intro x hxq hxins
          rcases mem_joinValues_dictInsert _ hxins with h | h
          · exact hl.2.2 hxq h
          · exact hdisj x (by rw [joinValues_cons]; exact List.mem_append_left _ hxq) h

end BallotAssigner

namespace BallotAssigner

variable {α β γ : Type}

/-- Sum of assigned-list lengths over a cons. -/
theorem sumValues_cons (q : β × List α) (l : List (β × List α)) :
    sumValues (q :: l) = q.2.length + sumValues l := by
  simp [sumValues]

/-- The clamp of the requested count is its minimum with the number of loaded
identifiers. -/
theorem clampedCount_eq_min (ballot_ids : List α) (count : Nat) :
    clampedCount ballot_ids count = min count ballot_ids.length := by
  unfold clampedCount
  split <;> omega

/-- When the verifier names are pairwise distinct and all absent from the
accumulator, no dict overwrite happens and the loop just appends one pair per
verifier. -/
theorem assignLoop_eq_buildPairs [DecidableEq β] (selected : List α) (base rem : Nat) :
    ∀ (vs : List β) (i start : Nat) (acc : List (β × List α)), vs.Nodup →
      (∀ v ∈ vs, v ∉ acc.map Prod.fst) →
      assignLoop selected base rem vs i start acc =
        acc ++ buildPairs selected base rem vs i start := by
  intro vs
  induction vs with
  | nil => intro i start acc _ _; simp [assignLoop, buildPairs]
  | cons v vs ih =>
      intro i start acc hnd hfresh
      rw [List.nodup_cons] at hnd
      have hv : v ∉ acc.map Prod.fst := hfresh v (List.mem_cons_self v vs)
      have hfresh2 : ∀ w ∈ vs,
          w ∉ (acc ++ [(v, sliceAt selected start (blockLen base rem i))]).map Prod.fst := by
        intro w hw hmem
        rw [List.map_append, List.mem_append] at hmem
        rcases hmem with h | h
        · exact hfresh w (List.mem_cons_of_mem _ hw) h
        · simp at h
          rw [h] at hw
          exact hnd.1 hw
      calc assignLoop selected base rem (v :: vs) i start acc
          = assignLoop selected base rem vs (i + 1) (start + blockLen base rem i)
              (dictInsert v (sliceAt selected start (blockLen base rem i)) acc) := rfl
        _ = assignLoop selected base rem vs (i + 1) (start + blockLen base rem i)
              (acc ++ [(v, sliceAt selected start (blockLen base rem i))]) := by
              rw [dictInsert_eq_append _ hv]
        _ = (acc ++ [(v, sliceAt selected start (blockLen base rem i))]) ++
              buildPairs selected base rem vs (i + 1) (start + blockLen base rem i) :=
              ih (i + 1) _ _ hnd.2 hfresh2
        _ = acc ++ buildPairs selected base rem (v :: vs) i start := by
              rw [List.append_assoc]
              rfl

/-- Entry `j` of the freshly built pair list: the verifier at index `j`
together with its contiguous block. -/
theorem buildPairs_getElem? (selected : List α) (base rem : Nat) :
    ∀ (vs : List β) (i j : Nat),
      (buildPairs selected base rem vs i (startIdx base rem i))[j]? =
        (vs[j]?).map (fun v => (v, blockFor selected base rem (i + j))) := by
  intro vs
  induction vs with
  | nil => intro i j; simp [buildPairs]
  | cons v vs ih =>
      intro i j
      rw [show buildPairs selected base rem (v :: vs) i (startIdx base rem i) =
          (v, sliceAt selected (startIdx base rem i) (blockLen base rem i)) ::
            buildPairs selected base rem vs (i + 1)
              (startIdx base rem i + blockLen base rem i) from rfl,
        ← startIdx_succ]
      cases j with
      | zero => simp [blockFor]
      | succ j =>
          have hidx : i + 1 + j = i + (j + 1) := by omega
          simp only [List.getElem?_cons_succ]
          rw [ih (i + 1) j, hidx]

/-- Length of the freshly built pair list. -/
theorem buildPairs_length (selected : List α) (base rem : Nat) :
    ∀ (vs : List β) (i start : Nat),
      (buildPairs selected base rem vs i start).length = vs.length := by
  intro vs
  induction vs with
  | nil => intro i start; rfl
  | cons v vs ih =>
      intro i start
      rw [show buildPairs selected base rem (v :: vs) i start =
          (v, sliceAt selected start (blockLen base rem i)) ::
            buildPairs selected base rem vs (i + 1) (start + blockLen base rem i) from rfl]
      rw [List.length_cons, List.length_cons, ih]

/-- Total number of ballots in the freshly built pairs: the loop walks the
start index from `startIdx i` to `startIdx (i + |vs|)`, so as long as the
final start index stays within `selected` every slice is full and the lengths
telescope. -/
theorem sumValues_buildPairs (selected : List α) (base rem : Nat) :
    ∀ (vs : List β) (i : Nat),
      startIdx base rem (i + vs.length) ≤ selected.length →
      startIdx base rem i +
          sumValues (buildPairs selected base rem vs i (startIdx base rem i)) =
        startIdx base rem (i + vs.length) := by
  intro vs
  induction vs with
  | nil => intro i _; simp [buildPairs, sumValues]
  | cons v vs ih =>
      intro i hle
      have hlen : (v :: vs).length = vs.length + 1 := List.length_cons v vs
      have hstep : startIdx base rem (i + 1) ≤ startIdx base rem (i + (v :: vs).length) :=
        startIdx_mono base rem (by omega)
      have hfull :
          (sliceAt selected (startIdx base rem i) (blockLen base rem i)).length =
            blockLen base rem i := by
        rw [length_sliceAt]
        have h1 := startIdx_succ base rem i
        have h2 : startIdx base rem (i + 1) ≤ selected.length := le_trans hstep hle
        omega
      have e2 : i + 1 + vs.length = i + (v :: vs).length := by omega
      have hrec := ih (i + 1) (by rw [e2]; exact hle)
      rw [show buildPairs selected base rem (v :: vs) i (startIdx base rem i) =
          (v, sliceAt selected (startIdx base rem i) (blockLen base rem i)) ::
            buildPairs selected base rem vs (i + 1)
              (startIdx base rem i + blockLen base rem i) from rfl,
        ← startIdx_succ, sumValues_cons, hfull, ← Nat.add_assoc,
        ← startIdx_succ base rem i, ← e2]
      exact hrec

end BallotAssigner

namespace BallotAssigner

variable {α β γ : Type}

/-- Invariant propagation through the loop: if every accumulated value and
every block in range satisfies `Q`, every value of the final dict does.
Dict overwrites may drop values but never introduce new ones, so the
conclusion holds even with duplicated verifier names. -/
theorem assignLoop_values [DecidableEq β] (selected : List α) (base rem : Nat)
    (Q : List α → Prop) :
    ∀ (vs : List β) (i : Nat) (acc : List (β × List α)),
      (∀ p ∈ acc, Q p.2) →
      (∀ j, i ≤ j → j < i + vs.length → Q (blockFor selected base rem j)) →
      ∀ p ∈ assignLoop selected base rem vs i (startIdx base rem i) acc, Q p.2 := by
  intro vs
  induction vs with
  | nil => intro i acc hacc _ p hp; exact hacc p hp
  | cons v vs ih =>
      intro i acc hacc hblocks p hp
      rw [show assignLoop selected base rem (v :: vs) i (startIdx base rem i) acc =
          assignLoop selected base rem vs (i + 1)
            (startIdx base rem i + blockLen base rem i)
            (dictInsert v (sliceAt selected (startIdx base rem i)
              (blockLen base rem i)) acc) from rfl,
        ← startIdx_succ] at hp
      refine ih (i + 1) _ ?_ ?_ p hp
      · intro q hq
        rcases mem_dictInsert hq with h | h
        · rw [h]
          exact hblocks i (Nat.le_refl i) (by rw [List.length_cons]; omega)
        · exact hacc q h
      · intro j hj1 hj2
        exact hblocks j (by omega) (by rw [List.length_cons]; omega)

/-- Splitting the loop at a list append. -/
theorem assignLoop_append [DecidableEq β] (selected : List α) (base rem : Nat)
    (ys : List β) :
    ∀ (xs : List β) (i : Nat) (acc : List (β × List α)),
      assignLoop selected base rem (xs ++ ys) i (startIdx base rem i) acc =
        assignLoop selected base rem ys (i + xs.length)
          (startIdx base rem (i + xs.length))
          (assignLoop selected base rem xs i (startIdx base rem i) acc) := by
  intro xs
  induction xs with
  | nil => intro i acc; simp [assignLoop]
  | cons x xs ih =>
      intro i acc
      rw [show (x :: xs) ++ ys = x :: (xs ++ ys) from rfl]
      rw [show assignLoop selected base rem (x :: (xs ++ ys)) i
            (startIdx base rem i) acc =
          assignLoop selected base rem (xs ++ ys) (i + 1)
            (startIdx base rem i + blockLen base rem i)
            (dictInsert x (sliceAt selected (startIdx base rem i)
              (blockLen base rem i)) acc) from rfl,
        ← startIdx_succ, ih (i + 1)]
      rw [show assignLoop selected base rem (x :: xs) i (startIdx base rem i) acc =
          assignLoop selected base rem xs (i + 1)
            (startIdx base rem i + blockLen base rem i)
            (dictInsert x (sliceAt selected (startIdx base rem i)
              (blockLen base rem i)) acc) from rfl,
        ← startIdx_succ]
      rw [show i + (x :: xs).length = i + 1 + xs.length from by
        rw [List.length_cons]; omega]

/-- A key that does not occur among the remaining verifiers keeps its dict
entry untouched for the rest of the loop. -/
theorem assignLoop_dictGet_notMem [DecidableEq β] (selected : List α)
    (base rem : Nat) (k : β) :
    ∀ (vs : List β) (i start : Nat) (acc : List (β × List α)), k ∉ vs →
      dictGet k (assignLoop selected base rem vs i start acc) = dictGet k acc := by
  intro vs
  induction vs with
  | nil => intro i start acc _; rfl
  | cons v vs ih =>
      intro i start acc hk
      rw [List.mem_cons] at hk
      have h1 : k ≠ v := fun h => hk (Or.inl h)
      have h2 : k ∉ vs := fun h => hk (Or.inr h)
      rw [show assignLoop selected base rem (v :: vs) i start acc =
          assignLoop selected base rem vs (i + 1) (start + blockLen base rem i)
            (dictInsert v (sliceAt selected start (blockLen base rem i)) acc)
          from rfl,
        ih (i + 1) _ _ h2]
      exact dictGet_dictInsert_ne _ h1 acc

/-- The loop preserves distinctness of the dict keys. -/
theorem assignLoop_keys_nodup [DecidableEq β] (selected : List α) (base rem : Nat) :
    ∀ (vs : List β) (i start : Nat) (acc : List (β × List α)),
      (acc.map Prod.fst).Nodup →
      ((assignLoop selected base rem vs i start acc).map Prod.fst).Nodup := by
  intro vs
  induction vs with
  | nil => intro i start acc h; exact h
  | cons v vs ih =>
      intro i start acc h
      rw [show assignLoop selected base rem (v :: vs) i start acc =
          assignLoop selected base rem vs (i + 1) (start + blockLen base rem i)
            (dictInsert v (sliceAt selected start (blockLen base rem i)) acc)
          from rfl]
      exact ih (i + 1) _ _ (keys_nodup_dictInsert acc h)

/-- A name is a key of the final dict exactly when it is a remaining verifier
or already a key of the accumulator. -/
theorem mem_assignLoop_keys [DecidableEq β] (selected : List α) (base rem : Nat)
    (k' : β) :
    ∀ (vs : List β) (i start : Nat) (acc : List (β × List α)),
      (k' ∈ (assignLoop selected base rem vs i start acc).map Prod.fst ↔
        k' ∈ vs ∨ k' ∈ acc.map Prod.fst) := by
  intro vs
  induction vs with
  | nil => intro i start acc; simp [assignLoop]
  | cons v vs ih =>
      intro i start acc
      rw [show assignLoop selected base rem (v :: vs) i start acc =
          assignLoop selected base rem vs (i + 1) (start + blockLen base rem i)
            (dictInsert v (sliceAt selected start (blockLen base rem i)) acc)
          from rfl,
        ih (i + 1), List.mem_cons]
      rw [mem_keys_dictInsert]
      tauto

/-- Main invariant for claim C4: starting from an accumulator whose joined
values are duplicate-free and contained in the already-consumed prefix of
`selected`, the loop keeps the joined values duplicate-free and contained in
the prefix consumed so far.  This holds with or without duplicated verifier
names, because every slice written is disjoint from the prefix the earlier
values came from. -/
theorem assignLoop_join [DecidableEq β] {selected : List α} (hsel : selected.Nodup)
    (base rem : Nat) :
    ∀ (vs : List β) (i : Nat) (acc : List (β × List α)),
      (joinValues acc).Nodup →
      (∀ x ∈ joinValues acc, x ∈ selected.take (startIdx base rem i)) →
      (joinValues (assignLoop selected base rem vs i (startIdx base rem i) acc)).Nodup ∧
        ∀ x ∈ joinValues (assignLoop selected base rem vs i (startIdx base rem i) acc),
          x ∈ selected.take (startIdx base rem (i + vs.length)) := by
  intro vs
  induction vs with
  | nil =>
      intro i acc h1 h2
      refine ⟨h1, ?_⟩
      intro x hx
      have := h2 x hx
      simpa using this
  | cons v vs ih =>
      intro i acc hnd hmem
      have hslice_nodup :
          (sliceAt selected (startIdx base rem i) (blockLen base rem i)).Nodup :=
        sliceAt_nodup hsel _ _
      have hdisj : ∀ x ∈ joinValues acc,
          x ∉ sliceAt selected (startIdx base rem i) (blockLen base rem i) := by
        intro x hx hxs
        exact not_mem_take_and_drop hsel (startIdx base rem i) (hmem x hx)
          (mem_drop_of_mem_sliceAt hxs)
      have hnd' := joinValues_dictInsert_nodup (k := v) acc hnd hslice_nodup hdisj
      have hmem' : ∀ x ∈ joinValues (dictInsert v
          (sliceAt selected (startIdx base rem i) (blockLen base rem i)) acc),
          x ∈ selected.take (startIdx base rem (i + 1)) := by
        intro x hx
        rcases mem_joinValues_dictInsert acc hx with h | h
        · exact mem_take_of_le (startIdx_mono base rem (Nat.le_succ i)) (hmem x h)
        · have h2 := mem_take_of_mem_sliceAt h
          rw [← startIdx_succ base rem i] at h2
          exact h2
      have hrec := ih (i + 1) _ hnd' hmem'
      rw [show assignLoop selected base rem (v :: vs) i (startIdx base rem i) acc =
          assignLoop selected base rem vs (i + 1)
            (startIdx base rem i + blockLen base rem i)
            (dictInsert v (sliceAt selected (startIdx base rem i)
              (blockLen base rem i)) acc) from rfl,
        ← startIdx_succ]
      refine ⟨hrec.1, ?_⟩
      intro x hx
      have h3 := hrec.2 x hx
      rw [show i + 1 + vs.length = i + (v :: vs).length from by
        rw [List.length_cons]; omega] at h3
      exact h3

end BallotAssigner

namespace BallotAssigner

variable {α β γ : Type}

/-- On non-empty inputs, `assign_ballots` returns exactly the dict built by
the partition loop. -/
theorem assign_ballots_ok [DecidableEq β] {ballot_ids : List α}
    {verifiers : List β} {count : Nat} {selected : List α}
    {asg : List (β × List α)}
    (hids : ballot_ids ≠ []) (hver : verifiers ≠ [])
    (hok : assign_ballots ballot_ids verifiers count selected = .ok asg) :
    asg = assignLoop selected (clampedCount ballot_ids count / verifiers.length)
      (clampedCount ballot_ids count % verifiers.length) verifiers 0 0 [] := by
  unfold assign_ballots at hok
  rw [if_neg] at hok
  · exact (Except.ok.inj hok).symm
  · simp [hids, hver]

/-- Python's `"".join(c for c in s if p(c))` builds exactly `filter p`. -/
theorem foldl_append_filter (p : γ → Bool) :
    ∀ (l acc : List γ),
      l.foldl (fun acc c => if p c then acc ++ [c] else acc) acc =
        acc ++ l.filter p := by
  intro l
  induction l with
  | nil => intro acc; simp
  | cons c l ih =>
      intro acc
      rw [List.foldl_cons, List.filter_cons]
      by_cases hc : p c
      · rw [if_pos hc, if_pos hc, ih, List.append_assoc]
        rfl
      · rw [if_neg hc, if_neg hc, ih]

end BallotAssigner

open BallotAssigner

/-- Claim C1, counterexample.  The claim quantifies over every non-empty
identifier list and non-empty recipient list, but when the recipient list
contains a duplicated name the dict write for the later occurrence overwrites
the earlier block, so the total number of assigned identifiers drops below
`min(requested_count, len(identifiers))`.  Here: identifiers `[0, 1]`,
verifiers `[5, 5]`, requested count 2, sampled-and-shuffled list `[0, 1]`
(which satisfies every guarantee of `random.sample`/`random.shuffle`:
length `min 2 2 = 2`, no duplicates, drawn from the identifiers); the result
assigns only ballot 1, so the sum of value lengths is 1, not 2. -/
theorem claim_C1_counterexample :
    assign_ballots ([0, 1] : List Nat) ([5, 5] : List Nat) 2 [0, 1] =
        .ok [(5, [1])] ∧
      ([0, 1] : List Nat) ≠ [] ∧ ([5, 5] : List Nat) ≠ [] ∧
      ([0, 1] : List Nat).length = clampedCount ([0, 1] : List Nat) 2 ∧
      ([0, 1] : List Nat).Nodup ∧
      sumValues [((5 : Nat), [(1 : Nat)])] ≠ min 2 ([0, 1] : List Nat).length :=
  ⟨rfl, by decide, by decide, by decide, by decide, by decide⟩

/-- Claim C1 (amended): for every loaded non-empty identifier list, non-empty
recipient list with PAIRWISE-DISTINCT recipient names, and requested count,
the assignment returned by `assign_ballots` satisfies
`sum(len(v) for v in assignment.values()) = min(requested_count,
len(identifiers))`; when the requested count exceeds the number of available
identifiers it is clamped to that number.  (`selected` is the output of
`random.sample` + `random.shuffle`; its length is always the clamped count.) -/
theorem claim_C1 {α β : Type} [DecidableEq β] (ballot_ids : List α)
    (verifiers : List β) (count : Nat) (selected : List α)
    (asg : List (β × List α))
    (hids : ballot_ids ≠ []) (hver : verifiers ≠ []) (hnd : verifiers.Nodup)
    (hlen : selected.length = clampedCount ballot_ids count)
    (hok : assign_ballots ballot_ids verifiers count selected = .ok asg) :
    sumValues asg = min count ballot_ids.length ∧
      (ballot_ids.length < count → sumValues asg = ballot_ids.length) := by
  have hn : 0 < verifiers.length := List.length_pos.2 hver
  have hasg := assign_ballots_ok hids hver hok
  set c := clampedCount ballot_ids count with hc
  set base := c / verifiers.length with hbase
  set rem := c % verifiers.length with hrem
  have hfresh : ∀ v ∈ verifiers, v ∉ ([] : List (β × List α)).map Prod.fst := by
    simp
  have heq : asg = buildPairs selected base rem verifiers 0 0 := by
    rw [hasg, assignLoop_eq_buildPairs selected base rem verifiers 0 0 [] hnd hfresh]
    rfl
  have htot : startIdx base rem verifiers.length = c := startIdx_total hn
  have hle : startIdx base rem (0 + verifiers.length) ≤ selected.length := by
    rw [Nat.zero_add, htot, hlen]
  have hsum := sumValues_buildPairs selected base rem verifiers 0 hle
  rw [startIdx_zero, Nat.zero_add, Nat.zero_add, htot] at hsum
  have hmain : sumValues asg = min count ballot_ids.length := by
    rw [heq, hsum, hc, clampedCount_eq_min]
  exact ⟨hmain, fun hlt => by rw [hmain]; omega⟩

/-- Claim C1, witness: identifiers `[0, 1, 2]`, distinct verifiers `[7, 8]`,
requested count 3, shuffled sample `[2, 0, 1]`; the resulting assignment
`[(7, [2, 0]), (8, [1])]` has value-length sum `3 = min 3 3`. -/
theorem claim_C1_witness :
    ([2, 0, 1] : List Nat).length = clampedCount ([0, 1, 2] : List Nat) 3 ∧
      (sumValues [((7 : Nat), ([2, 0] : List Nat)), (8, [1])] =
          min 3 ([0, 1, 2] : List Nat).length ∧
        (([0, 1, 2] : List Nat).length < 3 →
          sumValues [((7 : Nat), ([2, 0] : List Nat)), (8, [1])] =
            ([0, 1, 2] : List Nat).length)) :=
  ⟨by decide, claim_C1 [0, 1, 2] [7, 8] 3 [2, 0, 1] [(7, [2, 0]), (8, [1])]
    (by decide) (by decide) (by decide) (by decide) rfl⟩

namespace BallotAssigner

variable {α β : Type}

/-- A block with index below the verifier count is cut entirely inside
`selected`, hence has its nominal length. -/
theorem blockFor_length_of_lt {selected : List α} {base rem : Nat} {j n : Nat}
    (hj : j < n) (hle : startIdx base rem n ≤ selected.length) :
    (blockFor selected base rem j).length = blockLen base rem j := by
  rw [show blockFor selected base rem j =
      sliceAt selected (startIdx base rem j) (blockLen base rem j) from rfl,
    length_sliceAt]
  have h1 := startIdx_succ base rem j
  have h2 : startIdx base rem (j + 1) ≤ startIdx base rem n :=
    startIdx_mono base rem (by omega)
  omega

end BallotAssigner

/-- Claim C2, counterexample.  With duplicated verifier names the recipient at
load-order index 0 does not receive `count // num_recipients + 1` identifiers:
identifiers `[0]`, verifiers `[5, 5]`, count 1 (so remainder `1 % 2 = 1` and
index `0 < 1` should get `1 / 2 + 1 = 1` ballot), yet the dict entry for the
name 5 was overwritten by the empty block of the second occurrence and holds
0 ballots. -/
theorem claim_C2_counterexample :
    assign_ballots ([0] : List Nat) ([5, 5] : List Nat) 1 [0] = .ok [(5, [])] ∧
      ([0] : List Nat).length = clampedCount ([0] : List Nat) 1 ∧
      (0 : Nat) < 1 % 2 ∧
      dictGet (5 : Nat) [((5 : Nat), ([] : List Nat))] = some [] ∧
      ([] : List Nat).length ≠ 1 / 2 + 1 :=
  ⟨rfl, by decide, by decide, rfl, by decide⟩

/-- Claim C2 (amended): for every assignment produced by `assign_ballots` on
non-empty inputs whose recipient names are PAIRWISE DISTINCT, with clamped
count `c` over `n` recipients, the recipient at load-order index `j` receives
exactly `c / n + 1` identifiers when `j < c % n`, and exactly `c / n`
otherwise. -/
theorem claim_C2 {α β : Type} [DecidableEq β] (ballot_ids : List α)
    (verifiers : List β) (count : Nat) (selected : List α)
    (asg : List (β × List α)) (j : Nat)
    (hids : ballot_ids ≠ []) (hver : verifiers ≠ []) (hnd : verifiers.Nodup)
    (hlen : selected.length = clampedCount ballot_ids count)
    (hok : assign_ballots ballot_ids verifiers count selected = .ok asg)
    (hj : j < verifiers.length) :
    ∃ b : List α, asg[j]? = some (verifiers.get ⟨j, hj⟩, b) ∧
      b.length = if j < clampedCount ballot_ids count % verifiers.length
        then clampedCount ballot_ids count / verifiers.length + 1
        else clampedCount ballot_ids count / verifiers.length := by
  have hn : 0 < verifiers.length := List.length_pos.2 hver
  have hasg := assign_ballots_ok hids hver hok
  set c := clampedCount ballot_ids count with hc
  set base := c / verifiers.length with hbase
  set rem := c % verifiers.length with hrem
  have hfresh : ∀ v ∈ verifiers, v ∉ ([] : List (β × List α)).map Prod.fst := by
    simp
  have heq : asg = buildPairs selected base rem verifiers 0 0 := by
    rw [hasg, assignLoop_eq_buildPairs selected base rem verifiers 0 0 [] hnd hfresh]
    rfl
  have hget := buildPairs_getElem? selected base rem verifiers 0 j
  rw [startIdx_zero] at hget
  refine ⟨blockFor selected base rem j, ?_, ?_⟩
  · rw [heq, hget, List.getElem?_eq_getElem hj]
    simp
  · have htot : startIdx base rem verifiers.length = c := startIdx_total hn
    have hle : startIdx base rem verifiers.length ≤ selected.length := by
      rw [htot, hlen]
    rw [blockFor_length_of_lt hj hle]
    by_cases hcase : j < rem
    · simp [blockLen, hcase]
    · simp [blockLen, hcase]

/-- Claim C2, witness: identifiers `[0, 1, 2]`, distinct verifiers `[7, 8]`,
count 3, shuffled sample `[2, 0, 1]`; entry 0 of the assignment is verifier 7
with a block of `3 / 2 + 1 = 2` ballots (since `0 < 3 % 2`). -/
theorem claim_C2_witness :
    ∃ b : List Nat,
      ([((7 : Nat), ([2, 0] : List Nat)), (8, [1])])[0]? = some (7, b) ∧
        b.length = if 0 < clampedCount ([0, 1, 2] : List Nat) 3 % 2
          then clampedCount ([0, 1, 2] : List Nat) 3 / 2 + 1
          else clampedCount ([0, 1, 2] : List Nat) 3 / 2 :=
  claim_C2 [0, 1, 2] [7, 8] 3 [2, 0, 1] [(7, [2, 0]), (8, [1])] 0
    (by decide) (by decide) (by decide) (by decide) (by rfl) (by decide)

/-- Claim C3 (confirmed): for every assignment produced by `assign_ballots`
with non-empty inputs and for any two entries of that assignment, the lengths
of their identifier lists differ by at most one.  This holds even when
recipient names are duplicated, because every dict value is one of the loop's
blocks and every block has length `base` or `base + 1`. -/
theorem claim_C3 {α β : Type} [DecidableEq β] (ballot_ids : List α)
    (verifiers : List β) (count : Nat) (selected : List α)
    (asg : List (β × List α)) (p₁ p₂ : β × List α)
    (hids : ballot_ids ≠ []) (hver : verifiers ≠ [])
    (hlen : selected.length = clampedCount ballot_ids count)
    (hok : assign_ballots ballot_ids verifiers count selected = .ok asg)
    (hp₁ : p₁ ∈ asg) (hp₂ : p₂ ∈ asg) :
    |(p₁.2.length : Int) - (p₂.2.length : Int)| ≤ 1 := by
  have hn : 0 < verifiers.length := List.length_pos.2 hver
  have hasg := assign_ballots_ok hids hver hok
  set c := clampedCount ballot_ids count with hc
  set base := c / verifiers.length with hbase
  set rem := c % verifiers.length with hrem
  have htot : startIdx base rem verifiers.length = c := startIdx_total hn
  have hle : startIdx base rem verifiers.length ≤ selected.length := by
    rw [htot, hlen]
  have hall := assignLoop_values selected base rem
    (fun v => v.length = base ∨ v.length = base + 1) verifiers 0 []
    (by intro p hp; cases hp)
    (by
      intro j _ hj2
      rw [Nat.zero_add] at hj2
      rw [blockFor_length_of_lt hj2 hle]
      by_cases hcase : j < rem
      · simp [blockLen, hcase]
      · simp [blockLen, hcase])
  rw [startIdx_zero] at hall
  rw [hasg] at hp₁ hp₂
  rcases hall p₁ hp₁ with h1 | h1 <;> rcases hall p₂ hp₂ with h2 | h2 <;>
    rw [abs_le] <;> constructor <;> omega

/-- Claim C3, witness: in the concrete run with identifiers `[0, 1, 2]`,
verifiers `[7, 8]` and count 3, the two entries hold 2 and 1 ballots. -/
theorem claim_C3_witness :
    |((([2, 0] : List Nat)).length : Int) - ((([1] : List Nat)).length : Int)| ≤ 1 :=
  claim_C3 [0, 1, 2] [7, 8] 3 [2, 0, 1] [(7, [2, 0]), (8, [1])]
    (7, [2, 0]) (8, [1]) (by decide) (by decide) (by rfl) (by rfl)
    (by decide) (by decide)

/-- Claim C4 (confirmed): for every assignment produced by `assign_ballots`
from a duplicate-free loaded identifier list, the concatenation of all
per-recipient identifier lists contains no duplicates (no identifier appears
in two recipients' lists or twice in one list) and every identifier in it was
present in the loaded identifier list.  `selected` carries the guarantees of
`random.sample` on a duplicate-free population: it is duplicate-free and
drawn from `ballot_ids`.  No distinctness of verifier names is needed. -/
theorem claim_C4 {α β : Type} [DecidableEq β] (ballot_ids : List α)
    (verifiers : List β) (count : Nat) (selected : List α)
    (asg : List (β × List α)) (x : α)
    (hids : ballot_ids ≠ []) (hver : verifiers ≠ [])
    (_hidnd : ballot_ids.Nodup)
    (hsel : selected.Nodup) (hsub : ∀ y ∈ selected, y ∈ ballot_ids)
    (hok : assign_ballots ballot_ids verifiers count selected = .ok asg) :
    (joinValues asg).Nodup ∧ (x ∈ joinValues asg → x ∈ ballot_ids) := by
  have hasg := assign_ballots_ok hids hver hok
  set c := clampedCount ballot_ids count with hc
  set base := c / verifiers.length with hbase
  set rem := c % verifiers.length with hrem
  have hjoin := assignLoop_join hsel base rem verifiers 0 []
    (by simp [joinValues])
    (by intro y hy; simp [joinValues] at hy)
  rw [startIdx_zero] at hjoin
  rw [hasg]
  refine ⟨hjoin.1, ?_⟩
  intro hx
  have h2 := hjoin.2 x hx
  exact hsub x (List.take_subset _ _ h2)

/-- Claim C4, witness: the concrete run with identifiers `[0, 1, 2]`,
verifiers `[7, 8]`, count 3 and sample `[2, 0, 1]` yields joined values
`[2, 0, 1]`: duplicate-free, and the member 2 came from the identifiers. -/
theorem claim_C4_witness :
    (joinValues [((7 : Nat), ([2, 0] : List Nat)), (8, [1])]).Nodup ∧
      ((2 : Nat) ∈ joinValues [((7 : Nat), ([2, 0] : List Nat)), (8, [1])] →
        (2 : Nat) ∈ ([0, 1, 2] : List Nat)) :=
  claim_C4 [0, 1, 2] [7, 8] 3 [2, 0, 1] [(7, [2, 0]), (8, [1])] 2
    (by decide) (by decide) (by decide) (by decide) (by decide) (by rfl)

/-- Claim C5 (confirmed): `assign_ballots` fails with the not-loaded
`ValueError` (the spec's `NotLoadedError`) exactly when the loaded identifier
list or the loaded verifier list is empty; on non-empty inputs it always
returns an assignment, in particular an over-request is not an error, and the
over-request warning is printed whenever the requested count exceeds the
available identifiers. -/
theorem claim_C5 {α β : Type} [DecidableEq β] (ballot_ids : List α)
    (verifiers : List β) (count : Nat) (selected : List α) :
    (assign_ballots ballot_ids verifiers count selected = .error notLoadedMsg ↔
      ballot_ids = [] ∨ verifiers = []) ∧
    (ballot_ids ≠ [] → verifiers ≠ [] →
      ∃ asg, assign_ballots ballot_ids verifiers count selected = .ok asg) ∧
    (ballot_ids.length < count → overRequestWarning ballot_ids count = true) := by
  refine ⟨?_, ?_, ?_⟩
  · unfold assign_ballots
    by_cases h1 : ballot_ids = []
    · simp [h1]
    · by_cases h2 : verifiers = []
      · simp [h1, h2]
      · simp [h1, h2]
  · intro h1 h2
    exact ⟨_, by unfold assign_ballots; rw [if_neg (by simp [h1, h2])]⟩
  · intro h
    simp [overRequestWarning]
    omega

/-- Claim C5, witness: identifiers `[0]`, verifiers `[1]`, requested count 2
(an over-request): no error is raised, the result is an assignment, and the
warning fires. -/
theorem claim_C5_witness :
    (assign_ballots ([0] : List Nat) ([1] : List Nat) 2 [0] = .error notLoadedMsg ↔
      ([0] : List Nat) = [] ∨ ([1] : List Nat) = []) ∧
    (([0] : List Nat) ≠ [] → ([1] : List Nat) ≠ [] →
      ∃ asg, assign_ballots ([0] : List Nat) ([1] : List Nat) 2 [0] = .ok asg) ∧
    (([0] : List Nat).length < 2 → overRequestWarning ([0] : List Nat) 2 = true) :=
  claim_C5 [0] [1] 2 [0]

/-- Claim C9 (confirmed, implicit): when the loaded verifier list contains a
duplicated name, the returned dict has exactly one entry per distinct name
(keys are distinct and are exactly the loaded names), the entry of a name
holds only the contiguous block partitioned to its LAST load-order occurrence
(the verifier list is written `pre ++ k :: post` with `k ∉ post`, so the
occurrence of `k` at index `pre.length` is its last), and consequently the
total number of assigned identifiers can be strictly below the clamped count,
as the final conjunct exhibits on identifiers `[0, 1]`, verifiers `[5, 5]`,
count 2. -/
theorem claim_C9 {α β : Type} [DecidableEq β] (ballot_ids : List α)
    (pre post : List β) (k k' : β) (count : Nat) (selected : List α)
    (asg : List (β × List α))
    (hids : ballot_ids ≠ []) (hlast : k ∉ post)
    (hok : assign_ballots ballot_ids (pre ++ k :: post) count selected = .ok asg) :
    (asg.map Prod.fst).Nodup ∧
      (k' ∈ asg.map Prod.fst ↔ k' ∈ pre ++ k :: post) ∧
      dictGet k asg = some (blockFor selected
        (clampedCount ballot_ids count / (pre ++ k :: post).length)
        (clampedCount ballot_ids count % (pre ++ k :: post).length)
        pre.length) ∧
      (∃ (ids₂ vers₂ sel₂ : List Nat) (count₂ : Nat)
          (asg₂ : List (Nat × List Nat)),
        ids₂ ≠ [] ∧ vers₂ ≠ [] ∧ sel₂.length = clampedCount ids₂ count₂ ∧
        sel₂.Nodup ∧ (∀ y ∈ sel₂, y ∈ ids₂) ∧
        assign_ballots ids₂ vers₂ count₂ sel₂ = .ok asg₂ ∧
        sumValues asg₂ < clampedCount ids₂ count₂) := by
  have hver : pre ++ k :: post ≠ [] := by simp
  have hasg := assign_ballots_ok hids hver hok
  set c := clampedCount ballot_ids count with hc
  set base := c / (pre ++ k :: post).length with hbase
  set rem := c % (pre ++ k :: post).length with hrem
  refine ⟨?_, ?_, ?_, ?_⟩
  · rw [hasg]
    exact assignLoop_keys_nodup selected base rem _ 0 0 [] (by simp)
  · rw [hasg, mem_assignLoop_keys]
    simp
  · rw [hasg]
    have happ := assignLoop_append selected base rem (k :: post) pre 0 []
    rw [startIdx_zero, Nat.zero_add] at happ
    rw [happ]
    rw [show assignLoop selected base rem (k :: post) pre.length
          (startIdx base rem pre.length)
          (assignLoop selected base rem pre 0 0 []) =
        assignLoop selected base rem post (pre.length + 1)
          (startIdx base rem pre.length + blockLen base rem pre.length)
          (dictInsert k (sliceAt selected (startIdx base rem pre.length)
            (blockLen base rem pre.length))
            (assignLoop selected base rem pre 0 0 [])) from rfl]
    rw [assignLoop_dictGet_notMem selected base rem k post _ _ _ hlast]
    exact dictGet_dictInsert_self k _ _
  · exact ⟨[0, 1], [5, 5], [0, 1], 2, [(5, [1])], by decide, by decide,
      by decide, by decide, by decide, by rfl, by decide⟩

/-- Claim C9, witness: identifiers `[0, 1, 2]`, verifiers `[5, 6, 5]`
(written `[5, 6] ++ 5 :: []`), count 3, sample `[0, 1, 2]`.  The result
`[(5, [2]), (6, [1])]` has one entry per distinct name, the entry of 5 holds
the block of its last occurrence (index 2, ballot `[2]`), and the total
assigned is 2 < 3. -/
theorem claim_C9_witness :
    (([((5 : Nat), ([2] : List Nat)), (6, [1])]).map Prod.fst).Nodup ∧
      ((6 : Nat) ∈ ([((5 : Nat), ([2] : List Nat)), (6, [1])]).map Prod.fst ↔
        (6 : Nat) ∈ ([5, 6] : List Nat) ++ 5 :: []) ∧
      dictGet (5 : Nat) [((5 : Nat), ([2] : List Nat)), (6, [1])] =
        some (blockFor ([0, 1, 2] : List Nat)
          (clampedCount ([0, 1, 2] : List Nat) 3 /
            (([5, 6] : List Nat) ++ 5 :: []).length)
          (clampedCount ([0, 1, 2] : List Nat) 3 %
            (([5, 6] : List Nat) ++ 5 :: []).length)
          ([5, 6] : List Nat).length) ∧
      (∃ (ids₂ vers₂ sel₂ : List Nat) (count₂ : Nat)
          (asg₂ : List (Nat × List Nat)),
        ids₂ ≠ [] ∧ vers₂ ≠ [] ∧ sel₂.length = clampedCount ids₂ count₂ ∧
        sel₂.Nodup ∧ (∀ y ∈ sel₂, y ∈ ids₂) ∧
        assign_ballots ids₂ vers₂ count₂ sel₂ = .ok asg₂ ∧
        sumValues asg₂ < clampedCount ids₂ count₂) :=
  claim_C9 [0, 1, 2] [5, 6] [] 5 6 3 [0, 1, 2] [(5, [2]), (6, [1])]
    (by decide) (by decide) (by rfl)

/-- Claim C6 (confirmed): `generate_csv_files` fails with the no-assignment
`ValueError` (the spec's `NoAssignmentError`) exactly when the assignment
dict is empty — the freshly constructed assigner starts with the empty dict,
so "unset" and "empty" coincide — and in that case it returns before
producing any file: the error branch yields no (filename, rows) pair. -/
theorem claim_C6 (outputDirectory : String) (asg : List (String × List String)) :
    (generate_csv_files outputDirectory asg = .error noAssignmentMsg ↔ asg = []) ∧
      (asg = [] →
        ¬ ∃ files, generate_csv_files outputDirectory asg = .ok files) := by
  constructor
  · unfold generate_csv_files
    cases asg with
    | nil => simp
    | cons p rest => simp
  · rintro rfl ⟨files, hfiles⟩
    simp [generate_csv_files] at hfiles

/-- Claim C6, witness: with the one-entry assignment the export succeeds and
the error condition is equivalent to the (false) emptiness. -/
theorem claim_C6_witness :
    (generate_csv_files "output" [("A", ["x"])] = .error noAssignmentMsg ↔
      [("A", ["x"])] = ([] : List (String × List String))) ∧
      ([("A", ["x"])] = ([] : List (String × List String)) →
        ¬ ∃ files, generate_csv_files "output" [("A", ["x"])] = .ok files) :=
  claim_C6 "output" [("A", ["x"])]

/-- Claim C7 (confirmed): for a non-empty assignment the export produces one
file per recipient in dict order; each file's rows are the fixed schema header
followed by one row per assigned identifier in assignment order; each data row
is the identifier followed by literal "0" entries; the data-row count equals
the number of identifiers assigned to the recipient; and every row of a file
has exactly `header.length` columns (the same fixed schema for all files). -/
theorem claim_C7 (outputDirectory : String) (asg : List (String × List String))
    (p : String × List String) (r : List String) (j : Nat)
    (hne : asg ≠ []) (_hp : p ∈ asg) (hr : r ∈ fileRows p.2)
    (hj : j < p.2.length) :
    generate_csv_files outputDirectory asg =
        .ok (asg.map (fun q => (exportFileName outputDirectory q.1, fileRows q.2))) ∧
      (fileRows p.2).head? = some header ∧
      (fileRows p.2).length = p.2.length + 1 ∧
      r.length = header.length ∧
      (fileRows p.2)[j + 1]? =
        some (p.2.get ⟨j, hj⟩ :: List.replicate (header.length - 1) "0") := by
  have hlen213 : header.length = 213 := rfl
  refine ⟨?_, rfl, by simp [fileRows], ?_, ?_⟩
  · unfold generate_csv_files
    rw [if_neg (by simp [hne])]
  · rw [show fileRows p.2 = header ::
        p.2.map (fun b => b :: List.replicate (header.length - 1) "0") from rfl]
      at hr
    rcases List.mem_cons.1 hr with h | h
    · rw [h]
    · rcases List.mem_map.1 h with ⟨b, _, hb⟩
      rw [← hb]
      simp
      omega
  · rw [show fileRows p.2 = header ::
        p.2.map (fun b => b :: List.replicate (header.length - 1) "0") from rfl,
      List.getElem?_cons_succ, List.getElem?_map, List.getElem?_eq_getElem hj]
    rfl

/-- Claim C7, witness: assignment `[("A!", ["b1", "b2"])]`; its file holds the
header plus two data rows, the row after the header starts with "b1" followed
by zeros, and the header row (taken as `r`) has schema length. -/
theorem claim_C7_witness :
    generate_csv_files "out" [("A!", ["b1", "b2"])] =
        .ok ([("A!", ["b1", "b2"])].map
          (fun q => (exportFileName "out" q.1, fileRows q.2))) ∧
      (fileRows ["b1", "b2"]).head? = some header ∧
      (fileRows ["b1", "b2"]).length = (["b1", "b2"] : List String).length + 1 ∧
      header.length = header.length ∧
      (fileRows ["b1", "b2"])[0 + 1]? =
        some ((["b1", "b2"] : List String).get ⟨0, by decide⟩ ::
          List.replicate (header.length - 1) "0") :=
  claim_C7 "out" [("A!", ["b1", "b2"])] ("A!", ["b1", "b2"]) header 0
    (by simp) (by simp) (List.mem_cons_self _ _) (by decide)

/-- Claim C8 (confirmed): the export filename is obtained by removing every
character that is not alphanumeric (ASCII model of `str.isalnum`), space,
hyphen or underscore, trimming trailing whitespace, prefixing the literal
"Assigned_ballots_" and appending ".csv" (inside the output directory); the
source's fold-based join coincides with the specification's filter-based
description, and the spec's example "Jo/hn Doe!" sanitises to "John Doe". -/
theorem claim_C8 (outputDirectory verifier : String) :
    exportFileName outputDirectory verifier =
        outputDirectory ++ "/" ++
          ("Assigned_ballots_" ++ specSanitizedName verifier) ++ ".csv" ∧
      specSanitizedName "Jo/hn Doe!" = "John Doe" ∧
      safe_verifier_name "Jo/hn Doe!" = "Assigned_ballots_John Doe" := by
  have hfold : verifier.data.foldl
      (fun acc c => if pyKeepChar c then acc ++ [c] else acc) [] =
      verifier.data.filter pyKeepChar := by
    rw [foldl_append_filter pyKeepChar verifier.data []]
    simp
  refine ⟨?_, by decide, by decide⟩
  unfold exportFileName safe_verifier_name specSanitizedName
  rw [hfold]

/-- Claim C10 (confirmed, implicit): `get_assignment_summary` has no guard on
the assignment — on the empty dict it raises nothing and returns the empty
summary (it is a total function of the dict) — and for a non-empty dict it
returns one record per entry in dict-key order carrying the verifier name,
the count of assigned identifiers and the identifiers joined with ", ",
leaving the assignment itself untouched (it is consumed read-only). -/
theorem claim_C10 (asg : List (String × List String)) (j : Nat)
    (hj : j < asg.length) :
    get_assignment_summary ([] : List (String × List String)) = [] ∧
      (get_assignment_summary asg).length = asg.length ∧
      (get_assignment_summary asg)[j]? =
        some ⟨(asg.get ⟨j, hj⟩).1, (asg.get ⟨j, hj⟩).2.length,
          String.intercalate ", " (asg.get ⟨j, hj⟩).2⟩ := by
  refine ⟨rfl, by simp [get_assignment_summary], ?_⟩
  unfold get_assignment_summary
  rw [List.getElem?_map, List.getElem?_eq_getElem hj]
  rfl

/-- Claim C10, witness: the empty dict yields the empty summary, and the
one-entry dict `[("A", ["x", "y"])]` yields the record ("A", 2, "x, y"). -/
theorem claim_C10_witness :
    get_assignment_summary ([] : List (String × List String)) = [] ∧
      (get_assignment_summary [("A", ["x", "y"])]).length =
        ([("A", ["x", "y"])] : List (String × List String)).length ∧
      (get_assignment_summary [("A", ["x", "y"])])[0]? =
        some ⟨"A", (["x", "y"] : List String).length,
          String.intercalate ", " ["x", "y"]⟩ :=
  claim_C10 [("A", ["x", "y"])] 0 (by decide)
